import Mathlib

/-!
Shallow embedding of `knowledge_base.py` (class `KnowledgeBase`).

Modelling conventions:
* Python `str` is Lean `String`; the two string operations the code uses on
  document contents (`split('\n\n')[0]` and `replace('文件: ', '')`) are given
  explicit structural definitions over `String.data` so that they evaluate in
  the kernel.
* Embedding vectors (Python lists of floats produced by the external embedding
  service) are modelled as `List Int`; file modification times as `Int`.
  The claims under study only compare, order and sum these quantities, so an
  ordered-field carrier is not needed.
* The external collaborators (embedding service, text extraction, pathlib) are
  oracles passed in as functions; a Python exception raised by a collaborator
  is `none` / `Except.error`.
* A Python exception escaping a method is an `Option`/`Except` error result;
  an exception caught by the per-file `try/except` of
  `add_documents_from_directory` is a branch that returns the mutated-so-far
  state.
-/

/-- `doc.split('\n\n')[0]` on character lists: the segment of the list before
the first occurrence of `"\n\n"` (the whole list if there is none), exactly as
Python's `str.split` followed by `[0]`. -/
def firstSegment : List Char → List Char
  | '\n' :: '\n' :: _ => []
  | c :: rest => c :: firstSegment rest
  | [] => []

/-- `s.replace('文件: ', '')` on character lists: remove every (left-to-right,
non-overlapping) occurrence of the four-character pattern `文件: `. -/
def stripFileTag : List Char → List Char
  | '文' :: '件' :: ':' :: ' ' :: rest => stripFileTag rest
  | c :: rest => c :: stripFileTag rest
  | [] => []

/-- `doc.split('\n\n')[0].replace('文件: ', '')` — how
`add_documents_from_directory` recovers a stored document's identity
(its relative path) from its content string. -/
def docIdentity (d : String) : String :=
  ⟨stripFileTag (firstSegment d.data)⟩

/-- The in-memory state of a `KnowledgeBase` instance: the two index-aligned
parallel sequences plus the file metadata dictionary (absolute path ↦ mtime),
the latter modelled as an association list in insertion order. -/
structure KB where
  documents : List String
  embeddings : List (List Int)
  metadata : List (String × Int)
  deriving Repr, DecidableEq

/-- One file enumerated by `directory.rglob('*')` that passed the extension
filter.  `pathStr` is `str(file_path)`, `absPath` is
`str(file_path.absolute())`, `relPath` is `str(file_path.relative_to(directory))`,
`mtime` is `file_path.stat().st_mtime`, and `content` is the result of
`read_file_content` (`none` when reading raises). -/
structure FileInfo where
  pathStr : String
  absPath : String
  relPath : String
  mtime : Int
  content : Option String
  deriving Repr, DecidableEq

/-- Python `key in dict` / `dict[key]` on the metadata dictionary:
the value at the (unique) matching key. -/
def metaLookup : List (String × Int) → String → Option Int
  | [], _ => none
  | p :: m, k => if p.1 = k then some p.2 else metaLookup m k

/-- Whether the dictionary holds the key (`key in dict`). -/
def hasKey : List (String × Int) → String → Bool
  | [], _ => false
  | p :: m, k => p.1 = k || hasKey m k

/-- Overwrite the value stored at a present key, keeping dictionary order. -/
def replaceKey : List (String × Int) → String → Int → List (String × Int)
  | [], _, _ => []
  | p :: m, k, v => (if p.1 = k then (k, v) else p) :: replaceKey m k v

/-- Python `dict[key] = value`: replace the value if the key is present,
otherwise append the new entry at the end (dict insertion order). -/
def metaInsert (m : List (String × Int)) (k : String) (v : Int) : List (String × Int) :=
  if hasKey m k then replaceKey m k v else m ++ [(k, v)]

/-- `check_file_changes`: `True` when the file is new (no metadata entry under
`str(file_path)`) or its current mtime differs from the stored one. -/
def checkFileChanges (m : List (String × Int)) (f : FileInfo) : Bool :=
  match metaLookup m f.pathStr with
  | none => true
  | some t => decide (f.mtime ≠ t)

/-- The stored form of a document: `f"文件: {relative_path}\n\n{content}"`. -/
def mkDoc (rel content : String) : String :=
  "文件: " ++ rel ++ "\n\n" ++ content

/-- The identity-match loop of `add_documents_from_directory`: index of the
first stored document whose parsed identity equals the relative path. -/
def findDocIdx (docs : List String) (rel : String) : Option Nat :=
  match docs with
  | [] => none
  | d :: ds => if docIdentity d = rel then some 0 else (findDocIdx ds rel).map (· + 1)

/-- `add_document`: ask the embedding service for a vector of `content`, then
append content and vector.  A service error propagates (`none`), leaving the
store untouched. -/
def add_document (embed : String → Option (List Int)) (kb : KB) (content : String) :
    Option KB :=
  match embed content with
  | none => none
  | some e =>
    some { kb with documents := kb.documents ++ [content],
                   embeddings := kb.embeddings ++ [e] }

/-- The per-file body of the first loop of `add_documents_from_directory`,
including its `try/except` (any failure leaves the state as mutated so far and
moves on).  Mirrors the source line by line: change check; read (a read error
skips the file); identity-match; on a match assign `documents[i]` first, then
request the embedding of the bare `content` and assign `embeddings[i]`
(an embedding error — or an out-of-range index error — is caught after the
document was already replaced); otherwise the `add_document` call on the
decorated string, inlined here (embed, then append both sequences; its
exception is caught by this loop's `except`); on success record the file's
mtime under its absolute path. -/
def processFile (embed : String → Option (List Int)) (kb : KB) (f : FileInfo) : KB :=
  if checkFileChanges kb.metadata f then
    match f.content with
    | none => kb
    | some content =>
      match findDocIdx kb.documents f.relPath with
      | some i =>
        match embed content with
        | none => { kb with documents := kb.documents.set i (mkDoc f.relPath content) }
        | some e =>
          if i < kb.embeddings.length then
            { documents := kb.documents.set i (mkDoc f.relPath content),
              embeddings := kb.embeddings.set i e,
              metadata := metaInsert kb.metadata f.absPath f.mtime }
          else { kb with documents := kb.documents.set i (mkDoc f.relPath content) }
      | none =>
        match embed (mkDoc f.relPath content) with
        | none => kb
        | some e =>
          { documents := kb.documents ++ [mkDoc f.relPath content],
            embeddings := kb.embeddings ++ [e],
            metadata := metaInsert kb.metadata f.absPath f.mtime }
  else kb

/-- The set comprehension
`{str(Path(p).relative_to(directory)) for p in current_files}`:
`relTo` models `Path(·).relative_to(directory)` (`none` = `ValueError`, which
is *not* caught here and aborts the sync). -/
def computeRels (relTo : String → Option String) : List FileInfo → Option (List String)
  | [] => some []
  | f :: fs =>
    match relTo f.absPath with
    | none => none
    | some r => (computeRels relTo fs).map (r :: ·)

/-- The removal loop of `add_documents_from_directory`: walk `documents` with
its enumeration index, keep entries whose parsed identity is in the current
relative-path set together with `embeddings[i]` (an out-of-range access raises
`IndexError`, modelled as `none`), and count the dropped ones. -/
def removalScan (keep : String → Bool) (embs : List (List Int)) :
    List String → Nat → Option (List String × List (List Int) × Nat)
  | [], _ => some ([], [], 0)
  | d :: ds, i =>
    if keep (docIdentity d) then
      match embs[i]? with
      | none => none
      | some e =>
        match removalScan keep embs ds (i + 1) with
        | none => none
        | some (nd, ne, c) => some (d :: nd, e :: ne, c)
    else
      match removalScan keep embs ds (i + 1) with
      | none => none
      | some (nd, ne, c) => some (nd, ne, c + 1)

/-- `add_documents_from_directory` on an already-enumerated file list
(`directory.rglob('*')` filtered by extension, in enumeration order).
`embed` is the embedding service, `relTo` is `Path(·).relative_to(directory)`.
Returns `.error state` when an uncaught exception (`ValueError` from the set
comprehension, `IndexError` from the removal loop) aborts the sync with the
in-memory state already mutated, `.ok state` on normal completion. -/
def syncDir (embed : String → Option (List Int)) (relTo : String → Option String)
    (files : List FileInfo) (kb : KB) : Except KB KB :=
  let kb1 := files.foldl (processFile embed) kb
  match computeRels relTo files with
  | none => .error kb1
  | some rels =>
    match removalScan (fun s => decide (s ∈ rels)) kb1.embeddings kb1.documents 0 with
    | none => .error kb1
    | some (nd, ne, rc) =>
      if 0 < rc then
        .ok { documents := nd, embeddings := ne,
              metadata := kb1.metadata.filter (fun p =>
                match relTo p.1 with
                | some rp => decide (rp ∈ rels)
                | none => false) }
      else .ok kb1

/-- `clear_knowledge_base`: reset the three in-memory collections. -/
def clear_knowledge_base : KB :=
  { documents := [], embeddings := [], metadata := [] }

/-- `np.dot` of the query vector with one stored vector (equal-length 1-D
arrays): the sum of pointwise products. -/
def dot (q e : List Int) : Int :=
  ((q.zip e).map (fun p => p.1 * p.2)).sum

/-- Python's slice `l[-k:]`: for `k = 0` this is `l[0:]`, i.e. the whole list;
for `k > 0` it is the last `min k (length l)` elements. -/
def lastSlice (k : Nat) (l : List α) : List α :=
  if k = 0 then l else l.drop (l.length - k)

/-- The ascending order `np.argsort` sorts indices by: scores ascending,
equal scores by index ascending (the stable ascending argsort; `np.argsort`'s
tie order on these small arrays). -/
def ascRank (sims : List Int) (i j : Nat) : Prop :=
  sims.getD i 0 < sims.getD j 0 ∨ (sims.getD i 0 = sims.getD j 0 ∧ i ≤ j)

instance (sims : List Int) : DecidableRel (ascRank sims) := fun i j => by
  unfold ascRank; infer_instance

/-- `np.argsort(similarities)`: the indices `0 .. n-1` sorted ascending by
score (ties by index, see `ascRank`). -/
def argsortAsc (sims : List Int) : List Nat :=
  List.insertionSort (ascRank sims) (List.range sims.length)

/-- `search` after the query has been embedded: score every stored vector with
the dot product, take `np.argsort(similarities)[-top_k:][::-1]`, and return
the `(content, similarity)` pairs at those indices. -/
def searchModel (queryEmb : List Int) (top_k : Nat) (docs : List String)
    (embs : List (List Int)) : List (String × Int) :=
  let sims := embs.map (dot queryEmb)
  let topIndices := (lastSlice top_k (argsortAsc sims)).reverse
  topIndices.map (fun i => (docs.getD i "", sims.getD i 0))

/-! Persistence: the three artifacts under the storage directory.  Each cell is
`none` when the file does not exist, `some (.error ())` when it exists but its
parse (`json.load` / `pickle.load`) raises, `some (.ok v)` when it parses. -/

structure DiskState where
  documentsFile : Option (Except Unit (List String))
  embeddingsFile : Option (Except Unit (List (List Int)))
  metadataFile : Option (Except Unit (List (String × Int)))

/-- `load_documents`: absent file → `[]`; otherwise the parse outcome
(a parse exception propagates). -/
def load_documents (d : DiskState) : Except Unit (List String) :=
  match d.documentsFile with
  | none => .ok []
  | some r => r

/-- `load_embeddings`: absent file → `[]`; otherwise the parse outcome. -/
def load_embeddings (d : DiskState) : Except Unit (List (List Int)) :=
  match d.embeddingsFile with
  | none => .ok []
  | some r => r

/-- `load_metadata`: absent file → `{}`; otherwise the parse outcome. -/
def load_metadata (d : DiskState) : Except Unit (List (String × Int)) :=
  match d.metadataFile with
  | none => .ok {}
  | some r => r

/-- `save_data`: overwrite the documents and embeddings artifacts with the
current in-memory sequences. -/
def save_data (kb : KB) (d : DiskState) : DiskState :=
  { d with documentsFile := some (.ok kb.documents),
           embeddingsFile := some (.ok kb.embeddings) }

/-- `save_metadata`: overwrite the metadata artifact. -/
def save_metadata (kb : KB) (d : DiskState) : DiskState :=
  { d with metadataFile := some (.ok kb.metadata) }

/-- `KnowledgeBase.__init__` after creating the storage directory: load
metadata, then documents, then embeddings; any load exception propagates out
of the constructor. -/
def kbInit (d : DiskState) : Except Unit KB :=
  match load_metadata d with
  | .error e => .error e
  | .ok m =>
    match load_documents d with
    | .error e => .error e
    | .ok docs =>
      match load_embeddings d with
      | .error e => .error e
      | .ok embs => .ok { documents := docs, embeddings := embs, metadata := m }


/-- Specification-side characterization of a completed sync (proved equal to
`syncDir` when the store is aligned and `relative_to` succeeds on every
current file): the post-loop state with the parallel sequences filtered in one
pass to the documents whose identity is still among the current relative
paths, and the metadata pruned the same way when anything was dropped. -/
def syncOutcome (embed : String → Option (List Int)) (relTo : String → Option String)
    (files : List FileInfo) (kb : KB) : Except KB KB :=
  let kb1 := files.foldl (processFile embed) kb
  let rels := files.map (·.relPath)
  let zf := (kb1.documents.zip kb1.embeddings).filter
    (fun p => decide (docIdentity p.1 ∈ rels))
  if 0 < kb1.documents.length - zf.length then
    .ok { documents := zf.map (·.1), embeddings := zf.map (·.2),
          metadata := kb1.metadata.filter (fun p =>
            match relTo p.1 with
            | some rp => decide (rp ∈ rels)
            | none => false) }
  else .ok kb1

/-- Ranking claimed by the specification for search results: higher score
first, ties broken by original store order (earlier index first — a stable
descending sort of the indices). -/
def specRankStable (sims : List Int) (i j : Nat) : Prop :=
  sims.getD j 0 < sims.getD i 0 ∨ (sims.getD i 0 = sims.getD j 0 ∧ i ≤ j)

instance (sims : List Int) : DecidableRel (specRankStable sims) := fun i j => by
  unfold specRankStable; infer_instance

/-- Ranking actually realized by `search`: higher score first, ties broken by
*reverse* store order (later index first). -/
def specRankLast (sims : List Int) (i j : Nat) : Prop :=
  sims.getD j 0 < sims.getD i 0 ∨ (sims.getD i 0 = sims.getD j 0 ∧ j ≤ i)

instance (sims : List Int) : DecidableRel (specRankLast sims) := fun i j => by
  unfold specRankLast; infer_instance

/-- The indices of the top-`k` results under the spec's stable ranking. -/
def specTopKStable (sims : List Int) (k : Nat) : List Nat :=
  (List.insertionSort (specRankStable sims) (List.range sims.length)).take k

/-- The indices of the top-`k` results under the reverse-tie ranking. -/
def specTopKLast (sims : List Int) (k : Nat) : List Nat :=
  (List.insertionSort (specRankLast sims) (List.range sims.length)).take k

/-! ### Helper lemmas: the metadata dictionary -/

theorem metaLookup_replaceKey_self (m : List (String × Int)) (k : String) (v : Int)
    (h : hasKey m k = true) : metaLookup (replaceKey m k v) k = some v := by
  induction m with
  | nil => simp [hasKey] at h
  | cons p m ih =>
    by_cases hk : p.1 = k
    · simp [replaceKey, metaLookup, hk]
    · simp only [hasKey, Bool.or_eq_true, decide_eq_true_eq] at h
      simp [replaceKey, metaLookup, hk, ih (h.resolve_left hk)]

theorem metaLookup_insert_self (m : List (String × Int)) (k : String) (v : Int) :
    metaLookup (metaInsert m k v) k = some v := by
  unfold metaInsert
  split
  · exact metaLookup_replaceKey_self m k v (by assumption)
  · rename_i h
    induction m with
    | nil => simp [metaLookup]
    | cons p m ih =>
      simp only [hasKey, Bool.or_eq_true, decide_eq_true_eq, not_or] at h
      simp [metaLookup, h.1, ih (by simpa [hasKey] using h.2)]

theorem metaLookup_replaceKey_other (m : List (String × Int)) (k k' : String) (v : Int)
    (h : k' ≠ k) : metaLookup (replaceKey m k v) k' = metaLookup m k' := by
  induction m with
  | nil => rfl
  | cons p m ih =>
    by_cases hk : p.1 = k
    · have hkk : ¬ (k = k') := fun hc => h hc.symm
      have hp : ¬ p.1 = k' := by rw [hk]; exact hkk
      simp [replaceKey, hk, metaLookup, hkk, hp, ih]
    · rw [replaceKey, if_neg hk]
      by_cases hk' : p.1 = k'
      · simp [metaLookup, hk']
      · simp [metaLookup, hk', ih]

theorem metaLookup_append_single (m : List (String × Int)) (k k' : String) (v : Int)
    (h : k' ≠ k) : metaLookup (m ++ [(k, v)]) k' = metaLookup m k' := by
  induction m with
  | nil => simp [metaLookup, Ne.symm h]
  | cons p m ih =>
    by_cases hk' : p.1 = k' <;> simp [metaLookup, hk', ih]

theorem metaLookup_insert_other (m : List (String × Int)) (k k' : String) (v : Int)
    (h : k' ≠ k) : metaLookup (metaInsert m k v) k' = metaLookup m k' := by
  unfold metaInsert
  split
  · exact metaLookup_replaceKey_other m k k' v h
  · exact metaLookup_append_single m k k' v h

/-! ### Helper lemmas: alignment of the parallel sequences -/

theorem processFile_aligned (embed : String → Option (List Int)) (kb : KB) (f : FileInfo)
    (h : kb.documents.length = kb.embeddings.length) :
    (processFile embed kb f).documents.length = (processFile embed kb f).embeddings.length := by
  unfold processFile
  split
  · split
    · exact h
    · split
      · split
        · simpa using h
        · split
          · simp [h]
          · simpa using h
      · split
        · exact h
        · simp [h]
  · exact h

theorem foldl_processFile_aligned (embed : String → Option (List Int))
    (files : List FileInfo) (kb : KB)
    (h : kb.documents.length = kb.embeddings.length) :
    (files.foldl (processFile embed) kb).documents.length =
      (files.foldl (processFile embed) kb).embeddings.length := by
  induction files generalizing kb with
  | nil => exact h
  | cons f fs ih => exact ih _ (processFile_aligned embed kb f h)

/-! ### Helper lemmas: identity lookup -/

theorem findDocIdx_spec (docs : List String) (rel : String) (i : Nat)
    (h : findDocIdx docs rel = some i) :
    i < docs.length ∧ docIdentity (docs.getD i "") = rel := by
  induction docs generalizing i with
  | nil => simp [findDocIdx] at h
  | cons d ds ih =>
    rw [findDocIdx] at h
    split at h
    · cases h
      exact ⟨Nat.succ_pos _, by simpa using (by assumption : docIdentity d = rel)⟩
    · match hi : findDocIdx ds rel with
      | none => rw [hi] at h; simp at h
      | some j =>
        rw [hi] at h
        simp only [Option.map_some'] at h
        cases h
        obtain ⟨hlt, hid⟩ := ih j hi
        exact ⟨Nat.succ_lt_succ hlt, by simpa using hid⟩

/-! ### Helper lemmas: metadata effects of the per-file loop -/

theorem processFile_metaLookup_preserve (embed : String → Option (List Int)) (kb : KB)
    (f : FileInfo) (k : String) (hk : k ≠ f.absPath) :
    metaLookup (processFile embed kb f).metadata k = metaLookup kb.metadata k := by
  unfold processFile
  split
  · split
    · rfl
    · split
      · split
        · rfl
        · split
          · exact metaLookup_insert_other _ _ _ _ hk
          · rfl
      · split
        · rfl
        · exact metaLookup_insert_other _ _ _ _ hk
  · rfl

theorem checkFileChanges_false_lookup (m : List (String × Int)) (f : FileInfo)
    (h : checkFileChanges m f = false) : metaLookup m f.pathStr = some f.mtime := by
  unfold checkFileChanges at h
  split at h
  · cases h
  · rename_i t ht
    have : f.mtime = t := by simpa using h
    rw [ht, this]

theorem processFile_metaLookup_self (embed : String → Option (List Int)) (kb : KB)
    (f : FileInfo) (c : String)
    (habs : f.pathStr = f.absPath)
    (hc : f.content = some c)
    (he1 : embed c ≠ none)
    (he2 : embed (mkDoc f.relPath c) ≠ none)
    (hal : kb.documents.length = kb.embeddings.length) :
    metaLookup (processFile embed kb f).metadata f.absPath = some f.mtime := by
  unfold processFile
  split
  · split
    · rename_i heq
      rw [heq] at hc; cases hc
    · rename_i content heq
      rw [heq] at hc
      injection hc with hc'
      subst hc'
      split
      · rename_i i hf
        split
        · rename_i he
          exact absurd he he1
        · rename_i e he
          have hi : i < kb.embeddings.length := hal ▸ (findDocIdx_spec _ _ _ hf).1
          rw [if_pos hi]
          exact metaLookup_insert_self _ _ _
      · split
        · rename_i he
          exact absurd he he2
        · exact metaLookup_insert_self _ _ _
  · rename_i hcheck
    have h := checkFileChanges_false_lookup kb.metadata f (by simpa using hcheck)
    rw [← habs, h]

theorem foldl_metaLookup_preserve (embed : String → Option (List Int))
    (files : List FileInfo) (kb : KB) (k : String)
    (hk : ∀ f ∈ files, k ≠ f.absPath) :
    metaLookup (files.foldl (processFile embed) kb).metadata k = metaLookup kb.metadata k := by
  induction files generalizing kb with
  | nil => rfl
  | cons f fs ih =>
    rw [List.foldl_cons, ih _ (fun g hg => hk g (List.mem_cons_of_mem f hg)),
      processFile_metaLookup_preserve _ _ _ _ (hk f (List.mem_cons_self f fs))]

theorem foldl_metaLookup_self (embed : String → Option (List Int))
    (files : List FileInfo) (kb : KB)
    (habs : ∀ f ∈ files, f.pathStr = f.absPath)
    (hcontent : ∀ f ∈ files, f.content ≠ none)
    (hembed : ∀ f ∈ files, ∀ c, f.content = some c →
      embed c ≠ none ∧ embed (mkDoc f.relPath c) ≠ none)
    (hdist : files.Pairwise (fun f g => f.absPath ≠ g.absPath))
    (hal : kb.documents.length = kb.embeddings.length) :
    ∀ f ∈ files,
      metaLookup (files.foldl (processFile embed) kb).metadata f.absPath = some f.mtime := by
  induction files generalizing kb with
  | nil => intro f hf; cases hf
  | cons g gs ih =>
    intro f hf
    rw [List.foldl_cons]
    rcases List.mem_cons.mp hf with hfg | hfs
    · subst hfg
      obtain ⟨c, hc⟩ := Option.ne_none_iff_exists'.mp (hcontent f (List.mem_cons_self f gs))
      obtain ⟨he1, he2⟩ := hembed f (List.mem_cons_self f gs) c hc
      rw [foldl_metaLookup_preserve _ _ _ _
        (fun h hh => (List.pairwise_cons.mp hdist).1 h hh)]
      exact processFile_metaLookup_self embed kb f c
        (habs f (List.mem_cons_self f gs)) hc he1 he2 hal
    · exact ih (processFile embed kb g)
        (fun h hh => habs h (List.mem_cons_of_mem g hh))
        (fun h hh => hcontent h (List.mem_cons_of_mem g hh))
        (fun h hh => hembed h (List.mem_cons_of_mem g hh))
        (List.pairwise_cons.mp hdist).2
        (processFile_aligned embed kb g hal)
        f hfs

theorem processFile_unchanged (embed : String → Option (List Int)) (kb : KB) (f : FileInfo)
    (h : checkFileChanges kb.metadata f = false) : processFile embed kb f = kb := by
  unfold processFile
  rw [h]
  rfl

theorem foldl_processFile_unchanged (embed : String → Option (List Int))
    (files : List FileInfo) (kb : KB)
    (h : ∀ f ∈ files, checkFileChanges kb.metadata f = false) :
    files.foldl (processFile embed) kb = kb := by
  induction files with
  | nil => rfl
  | cons f fs ih =>
    rw [List.foldl_cons, processFile_unchanged _ _ _ (h f (List.mem_cons_self f fs)),
      ih (fun g hg => h g (List.mem_cons_of_mem f hg))]

/-! ### Helper lemmas: the removal pass -/

theorem computeRels_eq (relTo : String → Option String) (files : List FileInfo)
    (h : ∀ f ∈ files, relTo f.absPath = some f.relPath) :
    computeRels relTo files = some (files.map (·.relPath)) := by
  induction files with
  | nil => rfl
  | cons f fs ih =>
    rw [computeRels, h f (List.mem_cons_self f fs),
      ih (fun g hg => h g (List.mem_cons_of_mem f hg))]
    rfl

theorem removalScan_lengths (keep : String → Bool) (embs : List (List Int)) :
    ∀ (ds : List String) (i : Nat) (nd : List String) (ne : List (List Int)) (c : Nat),
      removalScan keep embs ds i = some (nd, ne, c) → nd.length = ne.length := by
  intro ds
  induction ds with
  | nil =>
    intro i nd ne c h
    rw [removalScan] at h
    cases h
    rfl
  | cons d ds ih =>
    intro i nd ne c h
    rw [removalScan] at h
    split at h
    · cases h1 : embs[i]? with
      | none => rw [h1] at h; cases h
      | some e =>
        rw [h1] at h
        cases h2 : removalScan keep embs ds (i + 1) with
        | none => rw [h2] at h; cases h
        | some t =>
          obtain ⟨nd0, ne0, c0⟩ := t
          rw [h2] at h
          cases h
          simpa using ih (i + 1) _ _ _ h2
    · cases h2 : removalScan keep embs ds (i + 1) with
      | none => rw [h2] at h; cases h
      | some t =>
        obtain ⟨nd0, ne0, c0⟩ := t
        rw [h2] at h
        cases h
        exact ih (i + 1) _ _ _ h2

theorem removalScan_eq (keep : String → Bool) (embs : List (List Int)) :
    ∀ (ds : List String) (i : Nat), i + ds.length ≤ embs.length →
      removalScan keep embs ds i =
        some (((ds.zip (embs.drop i)).filter (fun p => keep (docIdentity p.1))).map (·.1),
              ((ds.zip (embs.drop i)).filter (fun p => keep (docIdentity p.1))).map (·.2),
              ds.length -
                ((ds.zip (embs.drop i)).filter (fun p => keep (docIdentity p.1))).length) := by
  intro ds
  induction ds with
  | nil => intro i _; simp [removalScan]
  | cons d ds ih =>
    intro i hle
    have hi : i < embs.length := by simp at hle; omega
    have hdrop : embs.drop i = embs[i] :: embs.drop (i + 1) := List.drop_eq_getElem_cons hi
    have hflen : ((ds.zip (embs.drop (i + 1))).filter
        (fun p => keep (docIdentity p.1))).length ≤ ds.length := by
      calc ((ds.zip (embs.drop (i + 1))).filter (fun p => keep (docIdentity p.1))).length
          ≤ (ds.zip (embs.drop (i + 1))).length := List.length_filter_le _ _
        _ ≤ ds.length := by rw [List.length_zip]; omega
    rw [removalScan, hdrop, List.zip_cons_cons]
    split
    · rename_i hkeep
      rw [List.getElem?_eq_getElem hi, ih (i + 1) (by simp at hle ⊢; omega)]
      simp [List.filter_cons, hkeep, Nat.succ_sub_succ]
    · rename_i hkeep
      rw [Bool.not_eq_true] at hkeep
      rw [ih (i + 1) (by simp at hle ⊢; omega)]
      simp [List.filter_cons, hkeep, Nat.succ_sub hflen]

theorem removalScan_zero_keep (keep : String → Bool) (embs : List (List Int)) :
    ∀ (ds : List String) (i : Nat) (nd : List String) (ne : List (List Int)),
      removalScan keep embs ds i = some (nd, ne, 0) →
      ∀ d ∈ ds, keep (docIdentity d) = true := by
  intro ds
  induction ds with
  | nil => intro i nd ne _ d hd; cases hd
  | cons d0 ds ih =>
    intro i nd ne h d hd
    rw [removalScan] at h
    split at h
    · rename_i hkeep
      cases h1 : embs[i]? with
      | none => rw [h1] at h; cases h
      | some e =>
        rw [h1] at h
        cases h2 : removalScan keep embs ds (i + 1) with
        | none => rw [h2] at h; cases h
        | some t =>
          obtain ⟨nd0, ne0, c0⟩ := t
          rw [h2] at h
          cases h
          rcases List.mem_cons.mp hd with hd0 | hds
          · subst hd0; exact hkeep
          · exact ih (i + 1) _ _ h2 d hds
    · cases h2 : removalScan keep embs ds (i + 1) with
      | none => rw [h2] at h; cases h
      | some t =>
        obtain ⟨nd0, ne0, c0⟩ := t
        rw [h2] at h
        cases h

/-- Filtering the metadata dictionary leaves lookups at a key every entry of
which passes the predicate unchanged. -/
theorem metaLookup_filter_of_true (m : List (String × Int)) (q : String × Int → Bool)
    (k : String) (hq : ∀ v, q (k, v) = true) :
    metaLookup (m.filter q) k = metaLookup m k := by
  induction m with
  | nil => rfl
  | cons p m ih =>
    obtain ⟨p1, p2⟩ := p
    by_cases hk : p1 = k
    · subst hk
      rw [List.filter_cons]
      simp only [hq p2]
      simp [metaLookup]
    · rw [List.filter_cons]
      split
      · simp only [metaLookup, if_neg hk]
        exact ih
      · rw [ih]
        simp [metaLookup, hk]

/-! ### Helper lemmas: characterizing a completed sync -/

theorem syncDir_eq_syncOutcome (embed : String → Option (List Int))
    (relTo : String → Option String) (files : List FileInfo) (kb : KB)
    (hal : kb.documents.length = kb.embeddings.length)
    (hrel : ∀ f ∈ files, relTo f.absPath = some f.relPath) :
    syncDir embed relTo files kb = syncOutcome embed relTo files kb := by
  unfold syncDir syncOutcome
  simp only []
  rw [computeRels_eq relTo files hrel]
  simp only []
  have hal1 := foldl_processFile_aligned embed files kb hal
  rw [removalScan_eq _ _ _ 0 (by omega)]
  simp only [List.drop_zero]

theorem syncDir_ok_aligned (embed : String → Option (List Int))
    (relTo : String → Option String) (files : List FileInfo) (kb kb2 : KB)
    (hal : kb.documents.length = kb.embeddings.length)
    (h : syncDir embed relTo files kb = .ok kb2) :
    kb2.documents.length = kb2.embeddings.length := by
  unfold syncDir at h
  simp only [] at h
  cases hcr : computeRels relTo files with
  | none => rw [hcr] at h; cases h
  | some rels =>
    rw [hcr] at h
    simp only [] at h
    cases hscan : removalScan (fun s => decide (s ∈ rels))
        (List.foldl (processFile embed) kb files).embeddings
        (List.foldl (processFile embed) kb files).documents 0 with
    | none => rw [hscan] at h; cases h
    | some t =>
      obtain ⟨nd, ne, rc⟩ := t
      rw [hscan] at h
      simp only [] at h
      split at h
      · cases h
        simpa using removalScan_lengths _ _ _ _ _ _ _ hscan
      · cases h
        exact foldl_processFile_aligned embed files kb hal

/-- A file whose read raised (`content = none`) is skipped by the per-file
loop, leaving the state untouched. -/
theorem processFile_content_none (embed : String → Option (List Int)) (kb : KB)
    (f : FileInfo) (h : f.content = none) : processFile embed kb f = kb := by
  unfold processFile
  rw [h]
  split <;> rfl

/-! ### Claim theorems -/

/-- C1: after `add_document` completes normally, after `syncDir`
(`add_documents_from_directory`) completes normally, and after
`clear_knowledge_base`, the documents sequence and the embeddings sequence
have equal length, provided they were aligned before the operation. -/
theorem alignment_after_public_ops (embed : String → Option (List Int))
    (relTo : String → Option String) (kb : KB)
    (hal : kb.documents.length = kb.embeddings.length) :
    (∀ content kb1, add_document embed kb content = some kb1 →
      kb1.documents.length = kb1.embeddings.length) ∧
    (∀ files kb2, syncDir embed relTo files kb = .ok kb2 →
      kb2.documents.length = kb2.embeddings.length) ∧
    clear_knowledge_base.documents.length = clear_knowledge_base.embeddings.length := by
  refine ⟨?_, ?_, rfl⟩
  · intro content kb1 h
    unfold add_document at h
    cases he : embed content with
    | none => rw [he] at h; cases h
    | some e =>
      rw [he] at h
      cases h
      simp [hal]
  · intro files kb2 h
    exact syncDir_ok_aligned embed relTo files kb kb2 hal h

theorem alignment_after_public_ops_witness :
    (KB.mk [] [] []).documents.length = (KB.mk [] [] []).embeddings.length ∧
    ((∀ content kb1,
        add_document (fun _ => some [1]) (KB.mk [] [] []) content = some kb1 →
        kb1.documents.length = kb1.embeddings.length) ∧
      (∀ files kb2,
        syncDir (fun _ => some [1]) (fun _ => some "x") files (KB.mk [] [] []) = .ok kb2 →
        kb2.documents.length = kb2.embeddings.length) ∧
      clear_knowledge_base.documents.length = clear_knowledge_base.embeddings.length) :=
  ⟨rfl, alignment_after_public_ops (fun _ => some [1]) (fun _ => some "x") (KB.mk [] [] []) rfl⟩

/-- C9: saving the in-memory state (`save_data` then `save_metadata`) and
loading it in a fresh instance over the same storage directory reproduces the
documents, embeddings and metadata exactly. -/
theorem save_load_roundtrip (kb : KB) (disk : DiskState) :
    kbInit (save_metadata kb (save_data kb disk)) = .ok kb := rfl

/-- C7 counterexample: a documents artifact that exists but fails to parse
does *not* yield the empty initial state — the constructor propagates the
parse error instead of treating corruption as absence. -/
theorem load_corrupt_raises_counterexample :
    kbInit (DiskState.mk (some (.error ())) none none) = .error () ∧
    kbInit (DiskState.mk (some (.error ())) none none) ≠
      .ok (KB.mk [] [] []) := by
  refine ⟨rfl, ?_⟩
  intro h
  exact Except.noConfusion h

/-- C7 amended: absence of all three persisted artifacts yields the empty
initial state, but an artifact that exists and fails to parse makes the
constructor raise (the parse error propagates); corruption is not treated as
absence. -/
theorem load_absent_empty_corrupt_raises (disk : DiskState)
    (hcorrupt : disk.documentsFile = some (.error ()) ∨
      disk.embeddingsFile = some (.error ()) ∨
      disk.metadataFile = some (.error ())) :
    kbInit (DiskState.mk none none none) = .ok (KB.mk [] [] []) ∧
    kbInit disk = .error () := by
  refine ⟨rfl, ?_⟩
  obtain ⟨df, ef, mf⟩ := disk
  unfold kbInit load_metadata load_documents load_embeddings
  rcases hcorrupt with h | h | h
  · simp only at h
    subst h
    rcases mf with _ | (e | m) <;> rfl
  · simp only at h
    subst h
    rcases mf with _ | (e | m) <;> rcases df with _ | (e2 | d) <;> rfl
  · simp only at h
    subst h
    rfl

theorem load_absent_empty_corrupt_raises_witness :
    ((DiskState.mk (some (.error ())) none none).documentsFile = some (.error ()) ∨
      (DiskState.mk (some (.error ())) none none).embeddingsFile = some (.error ()) ∨
      (DiskState.mk (some (.error ())) none none).metadataFile = some (.error ())) ∧
    (kbInit (DiskState.mk none none none) = .ok (KB.mk [] [] []) ∧
      kbInit (DiskState.mk (some (.error ())) none none) = .error ()) :=
  ⟨Or.inl rfl, load_absent_empty_corrupt_raises _ (Or.inl rfl)⟩

/-- C4 counterexample: in the modified-file branch, when the embedding call
fails the stored content at the matched index has nevertheless been replaced —
the documents sequence is altered without a successfully computed embedding. -/
theorem replace_without_embedding_counterexample :
    (processFile (fun _ => none)
        (KB.mk ["文件: a.txt\n\nold"] [[5]] [])
        (FileInfo.mk "/r/a.txt" "/r/a.txt" "a.txt" 1 (some "new"))).documents ≠
      (KB.mk ["文件: a.txt\n\nold"] [[5]] []).documents ∧
    processFile (fun _ => none)
        (KB.mk ["文件: a.txt\n\nold"] [[5]] [])
        (FileInfo.mk "/r/a.txt" "/r/a.txt" "a.txt" 1 (some "new")) =
      KB.mk ["文件: a.txt\n\nnew"] [[5]] [] := by
  constructor
  · decide
  · rfl

/-- C4 amended: a document is only *appended* once its embedding has been
successfully computed — a failing embedding call leaves the store untouched in
the new-file branch of the sync and in `add_document` (where the error
propagates).  In the modified-file branch, however, the content at the matched
index is replaced *before* the embedding call, so an embedding failure there
leaves the new content paired with the stale embedding; the embeddings
sequence and the lengths are unchanged. -/
theorem mutation_on_embedding_failure_amended (embed : String → Option (List Int))
    (kb : KB) (fN fM : FileInfo) (cN cM c : String) (i : Nat)
    (hcN : fN.content = some cN)
    (hfindN : findDocIdx kb.documents fN.relPath = none)
    (heN : embed (mkDoc fN.relPath cN) = none)
    (hchkM : checkFileChanges kb.metadata fM = true)
    (hcM : fM.content = some cM)
    (hfindM : findDocIdx kb.documents fM.relPath = some i)
    (heM : embed cM = none)
    (hadd : embed c = none) :
    processFile embed kb fN = kb ∧
    add_document embed kb c = none ∧
    processFile embed kb fM =
      { kb with documents := kb.documents.set i (mkDoc fM.relPath cM) } ∧
    (processFile embed kb fM).documents.length = kb.documents.length ∧
    (processFile embed kb fM).embeddings = kb.embeddings := by
  have hN : processFile embed kb fN = kb := by
    unfold processFile
    rw [hcN, hfindN]
    simp only []
    rw [heN]
    split <;> rfl
  have hM : processFile embed kb fM =
      { kb with documents := kb.documents.set i (mkDoc fM.relPath cM) } := by
    unfold processFile
    rw [if_pos hchkM, hcM]
    simp only []
    rw [hfindM]
    simp only []
    rw [heM]
  refine ⟨hN, ?_, hM, ?_, ?_⟩
  · unfold add_document
    rw [hadd]
  · rw [hM]
    simp
  · rw [hM]

theorem mutation_on_embedding_failure_amended_witness :
    ((FileInfo.mk "/r/b.txt" "/r/b.txt" "b.txt" 1 (some "nb")).content = some "nb") ∧
    (processFile (fun _ => none) (KB.mk ["文件: a.txt\n\nold"] [[5]] [])
        (FileInfo.mk "/r/b.txt" "/r/b.txt" "b.txt" 1 (some "nb")) =
        KB.mk ["文件: a.txt\n\nold"] [[5]] [] ∧
      add_document (fun _ => none) (KB.mk ["文件: a.txt\n\nold"] [[5]] []) "q" = none ∧
      processFile (fun _ => none) (KB.mk ["文件: a.txt\n\nold"] [[5]] [])
        (FileInfo.mk "/r/a.txt" "/r/a.txt" "a.txt" 1 (some "new")) =
        { KB.mk ["文件: a.txt\n\nold"] [[5]] [] with
            documents := (KB.mk ["文件: a.txt\n\nold"] [[5]] []).documents.set 0
              (mkDoc "a.txt" "new") } ∧
      (processFile (fun _ => none) (KB.mk ["文件: a.txt\n\nold"] [[5]] [])
        (FileInfo.mk "/r/a.txt" "/r/a.txt" "a.txt" 1 (some "new"))).documents.length =
        (KB.mk ["文件: a.txt\n\nold"] [[5]] []).documents.length ∧
      (processFile (fun _ => none) (KB.mk ["文件: a.txt\n\nold"] [[5]] [])
        (FileInfo.mk "/r/a.txt" "/r/a.txt" "a.txt" 1 (some "new"))).embeddings =
        (KB.mk ["文件: a.txt\n\nold"] [[5]] []).embeddings) :=
  ⟨rfl, mutation_on_embedding_failure_amended (fun _ => none)
    (KB.mk ["文件: a.txt\n\nold"] [[5]] [])
    (FileInfo.mk "/r/b.txt" "/r/b.txt" "b.txt" 1 (some "nb"))
    (FileInfo.mk "/r/a.txt" "/r/a.txt" "a.txt" 1 (some "new"))
    "nb" "new" "q" 0 rfl (by decide) rfl (by decide) rfl (by decide) rfl rfl⟩

/-- C6: when a tracked file is classified changed, its content read, the
identity-match loop finds index `i` (the first stored document whose parsed
leading tag equals the file's relative path), and the embedding call
succeeds, the sync replaces the content and the embedding in place at that
same index `i` and records the new mtime; both sequence lengths are
unchanged. -/
theorem update_in_place (embed : String → Option (List Int)) (kb : KB)
    (f : FileInfo) (c : String) (i : Nat) (e : List Int)
    (hchk : checkFileChanges kb.metadata f = true)
    (hc : f.content = some c)
    (hfind : findDocIdx kb.documents f.relPath = some i)
    (he : embed c = some e)
    (hal : kb.documents.length = kb.embeddings.length) :
    processFile embed kb f =
      { documents := kb.documents.set i (mkDoc f.relPath c),
        embeddings := kb.embeddings.set i e,
        metadata := metaInsert kb.metadata f.absPath f.mtime } ∧
    i < kb.documents.length ∧
    docIdentity (kb.documents.getD i "") = f.relPath ∧
    (processFile embed kb f).documents.length = kb.documents.length ∧
    (processFile embed kb f).embeddings.length = kb.embeddings.length := by
  obtain ⟨hlt, hid⟩ := findDocIdx_spec _ _ _ hfind
  have hi : i < kb.embeddings.length := hal ▸ hlt
  have hmain : processFile embed kb f =
      { documents := kb.documents.set i (mkDoc f.relPath c),
        embeddings := kb.embeddings.set i e,
        metadata := metaInsert kb.metadata f.absPath f.mtime } := by
    unfold processFile
    rw [if_pos hchk, hc]
    simp only []
    rw [hfind]
    simp only []
    rw [he]
    simp only []
    rw [if_pos hi]
  refine ⟨hmain, hlt, hid, ?_, ?_⟩ <;> rw [hmain] <;> simp

theorem update_in_place_witness :
    checkFileChanges (KB.mk ["文件: a.txt\n\nold"] [[5]] []).metadata
        (FileInfo.mk "/r/a.txt" "/r/a.txt" "a.txt" 1 (some "new")) = true ∧
    (processFile (fun _ => some [7]) (KB.mk ["文件: a.txt\n\nold"] [[5]] [])
        (FileInfo.mk "/r/a.txt" "/r/a.txt" "a.txt" 1 (some "new")) =
      { documents := (KB.mk ["文件: a.txt\n\nold"] [[5]] []).documents.set 0
          (mkDoc "a.txt" "new"),
        embeddings := (KB.mk ["文件: a.txt\n\nold"] [[5]] []).embeddings.set 0 [7],
        metadata := metaInsert (KB.mk ["文件: a.txt\n\nold"] [[5]] []).metadata
          "/r/a.txt" 1 } ∧
      0 < (KB.mk ["文件: a.txt\n\nold"] [[5]] []).documents.length ∧
      docIdentity ((KB.mk ["文件: a.txt\n\nold"] [[5]] []).documents.getD 0 "") = "a.txt" ∧
      (processFile (fun _ => some [7]) (KB.mk ["文件: a.txt\n\nold"] [[5]] [])
        (FileInfo.mk "/r/a.txt" "/r/a.txt" "a.txt" 1 (some "new"))).documents.length =
        (KB.mk ["文件: a.txt\n\nold"] [[5]] []).documents.length ∧
      (processFile (fun _ => some [7]) (KB.mk ["文件: a.txt\n\nold"] [[5]] [])
        (FileInfo.mk "/r/a.txt" "/r/a.txt" "a.txt" 1 (some "new"))).embeddings.length =
        (KB.mk ["文件: a.txt\n\nold"] [[5]] []).embeddings.length) :=
  ⟨rfl, update_in_place (fun _ => some [7]) (KB.mk ["文件: a.txt\n\nold"] [[5]] [])
    (FileInfo.mk "/r/a.txt" "/r/a.txt" "a.txt" 1 (some "new"))
    "new" 0 [7] rfl rfl (by decide) rfl rfl⟩

/-- C8: during the batch sync every per-file error is caught and the batch
continues — a file whose read raises is skipped and the fold over the
remaining files proceeds as if it were absent, a file whose embedding call
fails in the new-file branch is skipped, and the sync still completes
normally; by contrast `add_document` propagates an embedding-service error to
its caller. -/
theorem batch_error_isolation (embed : String → Option (List Int))
    (relTo : String → Option String) (files l1 l2 : List FileInfo)
    (kb : KB) (fR fE : FileInfo) (cE c : String)
    (hal : kb.documents.length = kb.embeddings.length)
    (hrel : ∀ f ∈ files, relTo f.absPath = some f.relPath)
    (hR : fR.content = none)
    (hEc : fE.content = some cE)
    (hEfind : findDocIdx kb.documents fE.relPath = none)
    (hEembed : embed (mkDoc fE.relPath cE) = none)
    (hadd : embed c = none) :
    (∃ kb2, syncDir embed relTo files kb = .ok kb2) ∧
    processFile embed kb fR = kb ∧
    List.foldl (processFile embed) kb (l1 ++ fR :: l2) =
      List.foldl (processFile embed) kb (l1 ++ l2) ∧
    processFile embed kb fE = kb ∧
    add_document embed kb c = none := by
  refine ⟨?_, processFile_content_none embed kb fR hR, ?_, ?_, ?_⟩
  · rw [syncDir_eq_syncOutcome embed relTo files kb hal hrel]
    unfold syncOutcome
    simp only []
    split
    · exact ⟨_, rfl⟩
    · exact ⟨_, rfl⟩
  · rw [List.foldl_append, List.foldl_append, List.foldl_cons,
      processFile_content_none embed _ fR hR]
  · unfold processFile
    rw [hEc]
    simp only []
    rw [hEfind]
    simp only []
    rw [hEembed]
    split <;> rfl
  · unfold add_document
    rw [hadd]

theorem batch_error_isolation_witness :
    (KB.mk [] [] []).documents.length = (KB.mk [] [] []).embeddings.length ∧
    ((∃ kb2, syncDir (fun _ => none) (fun _ => some "x") [] (KB.mk [] [] []) = .ok kb2) ∧
      processFile (fun _ => none) (KB.mk [] [] [])
        (FileInfo.mk "r.txt" "/r.txt" "r.txt" 1 none) = KB.mk [] [] [] ∧
      List.foldl (processFile (fun _ => none)) (KB.mk [] [] [])
        ([] ++ FileInfo.mk "r.txt" "/r.txt" "r.txt" 1 none :: []) =
        List.foldl (processFile (fun _ => none)) (KB.mk [] [] []) ([] ++ []) ∧
      processFile (fun _ => none) (KB.mk [] [] [])
        (FileInfo.mk "e.txt" "/e.txt" "e.txt" 1 (some "ce")) = KB.mk [] [] [] ∧
      add_document (fun _ => none) (KB.mk [] [] []) "q" = none) :=
  ⟨rfl, batch_error_isolation (fun _ => none) (fun _ => some "x") [] [] []
    (KB.mk [] [] []) (FileInfo.mk "r.txt" "/r.txt" "r.txt" 1 none)
    (FileInfo.mk "e.txt" "/e.txt" "e.txt" 1 (some "ce")) "ce" "q"
    rfl (by intro f hf; cases hf) rfl rfl rfl rfl rfl⟩

/-- C5: on a resync where every present file is classified unchanged, the
removal pass drops exactly the stored documents whose parsed identity tag is
not among the relative paths of the currently present files, together with
their index-aligned embeddings, in one filtering pass over the zipped parallel
sequences — so the survivors keep their relative order. -/
theorem deletion_drops_exactly_missing (embed : String → Option (List Int))
    (relTo : String → Option String) (files : List FileInfo) (kb : KB)
    (hal : kb.documents.length = kb.embeddings.length)
    (hunch : ∀ f ∈ files, checkFileChanges kb.metadata f = false)
    (hrel : ∀ f ∈ files, relTo f.absPath = some f.relPath) :
    ∃ m2, syncDir embed relTo files kb =
      .ok (KB.mk
        (((kb.documents.zip kb.embeddings).filter
          (fun p => decide (docIdentity p.1 ∈ files.map (·.relPath)))).map (·.1))
        (((kb.documents.zip kb.embeddings).filter
          (fun p => decide (docIdentity p.1 ∈ files.map (·.relPath)))).map (·.2))
        m2) := by
  rw [syncDir_eq_syncOutcome embed relTo files kb hal hrel]
  unfold syncOutcome
  simp only []
  rw [foldl_processFile_unchanged embed files kb hunch]
  split
  · exact ⟨_, rfl⟩
  · rename_i hc
    have h1 : ((kb.documents.zip kb.embeddings).filter
        (fun p => decide (docIdentity p.1 ∈ files.map (·.relPath)))).length ≤
        (kb.documents.zip kb.embeddings).length := List.length_filter_le _ _
    have h2 : (kb.documents.zip kb.embeddings).length = kb.documents.length := by
      rw [List.length_zip]; omega
    have hzf : (kb.documents.zip kb.embeddings).filter
        (fun p => decide (docIdentity p.1 ∈ files.map (·.relPath))) =
        kb.documents.zip kb.embeddings :=
      (List.filter_sublist _).eq_of_length (by omega)
    refine ⟨kb.metadata, ?_⟩
    rw [hzf, List.map_fst_zip _ _ (by omega), List.map_snd_zip _ _ (by omega)]

theorem deletion_drops_exactly_missing_witness :
    (KB.mk ["文件: a.txt\n\nA", "文件: b.txt\n\nB"] [[1], [2]]
        [("/w/a.txt", 10)]).documents.length =
      (KB.mk ["文件: a.txt\n\nA", "文件: b.txt\n\nB"] [[1], [2]]
        [("/w/a.txt", 10)]).embeddings.length ∧
    (∃ m2, syncDir (fun _ => some [9])
        (fun s => if s = "/w/a.txt" then some "a.txt" else none)
        [FileInfo.mk "/w/a.txt" "/w/a.txt" "a.txt" 10 (some "A")]
        (KB.mk ["文件: a.txt\n\nA", "文件: b.txt\n\nB"] [[1], [2]] [("/w/a.txt", 10)]) =
      .ok (KB.mk
        ((((KB.mk ["文件: a.txt\n\nA", "文件: b.txt\n\nB"] [[1], [2]]
            [("/w/a.txt", 10)]).documents.zip
          (KB.mk ["文件: a.txt\n\nA", "文件: b.txt\n\nB"] [[1], [2]]
            [("/w/a.txt", 10)]).embeddings).filter
          (fun p => decide (docIdentity p.1 ∈
            [FileInfo.mk "/w/a.txt" "/w/a.txt" "a.txt" 10 (some "A")].map
              (·.relPath)))).map (·.1))
        ((((KB.mk ["文件: a.txt\n\nA", "文件: b.txt\n\nB"] [[1], [2]]
            [("/w/a.txt", 10)]).documents.zip
          (KB.mk ["文件: a.txt\n\nA", "文件: b.txt\n\nB"] [[1], [2]]
            [("/w/a.txt", 10)]).embeddings).filter
          (fun p => decide (docIdentity p.1 ∈
            [FileInfo.mk "/w/a.txt" "/w/a.txt" "a.txt" 10 (some "A")].map
              (·.relPath)))).map (·.2))
        m2)) :=
  ⟨rfl, deletion_drops_exactly_missing (fun _ => some [9])
    (fun s => if s = "/w/a.txt" then some "a.txt" else none)
    [FileInfo.mk "/w/a.txt" "/w/a.txt" "a.txt" 10 (some "A")]
    (KB.mk ["文件: a.txt\n\nA", "文件: b.txt\n\nB"] [[1], [2]] [("/w/a.txt", 10)])
    rfl (by decide) (by decide)⟩

/-- If the store is aligned, every tracked file's metadata entry matches its
current mtime (under its `str(path)` key), and every stored document's
identity is among the current relative paths, then a further sync classifies
every file unchanged and returns the store untouched. -/
theorem syncDir_noop (embed : String → Option (List Int))
    (relTo : String → Option String) (files : List FileInfo) (kb1 : KB)
    (hal1 : kb1.documents.length = kb1.embeddings.length)
    (habs : ∀ f ∈ files, f.pathStr = f.absPath)
    (hrel : ∀ f ∈ files, relTo f.absPath = some f.relPath)
    (hmeta : ∀ f ∈ files, metaLookup kb1.metadata f.absPath = some f.mtime)
    (hkeep : ∀ d ∈ kb1.documents, docIdentity d ∈ files.map (·.relPath)) :
    (∀ f ∈ files, checkFileChanges kb1.metadata f = false) ∧
    syncDir embed relTo files kb1 = .ok kb1 := by
  have hcheck : ∀ f ∈ files, checkFileChanges kb1.metadata f = false := by
    intro f hf
    have hl : metaLookup kb1.metadata f.pathStr = some f.mtime := by
      rw [habs f hf]; exact hmeta f hf
    unfold checkFileChanges
    rw [hl]
    simp
  refine ⟨hcheck, ?_⟩
  rw [syncDir_eq_syncOutcome embed relTo files kb1 hal1 hrel]
  unfold syncOutcome
  simp only []
  rw [foldl_processFile_unchanged embed files kb1 hcheck]
  have hzf : (kb1.documents.zip kb1.embeddings).filter
      (fun p => decide (docIdentity p.1 ∈ files.map (·.relPath))) =
      kb1.documents.zip kb1.embeddings := by
    apply List.filter_eq_self.mpr
    intro p hp
    obtain ⟨a, b⟩ := p
    simpa using hkeep a (List.of_mem_zip hp).1
  rw [hzf]
  rw [if_neg (by rw [List.length_zip]; omega)]

/-- C2 amended: when the sync root is absolute — every enumerated file's
`str(path)` equals its absolute path, which is what `add_documents_from_directory`
keys the metadata by while `check_file_changes` looks up `str(path)` — and
every file of the first run is read and embedded successfully, then after a
completed first sync the second sync classifies every present file unchanged
and returns the stores exactly as the first run left them. -/
theorem resync_idempotent_amended (embed : String → Option (List Int))
    (relTo : String → Option String) (files : List FileInfo) (kb kb1 : KB)
    (hal : kb.documents.length = kb.embeddings.length)
    (habs : ∀ f ∈ files, f.pathStr = f.absPath)
    (hrel : ∀ f ∈ files, relTo f.absPath = some f.relPath)
    (hdist : files.Pairwise (fun f g => f.absPath ≠ g.absPath))
    (hcontent : ∀ f ∈ files, f.content ≠ none)
    (hembed : ∀ f ∈ files, ∀ c, f.content = some c →
      embed c ≠ none ∧ embed (mkDoc f.relPath c) ≠ none)
    (h1 : syncDir embed relTo files kb = .ok kb1) :
    (∀ f ∈ files, checkFileChanges kb1.metadata f = false) ∧
    syncDir embed relTo files kb1 = .ok kb1 := by
  have halm : (List.foldl (processFile embed) kb files).documents.length =
      (List.foldl (processFile embed) kb files).embeddings.length :=
    foldl_processFile_aligned embed files kb hal
  have hmeta : ∀ f ∈ files,
      metaLookup (List.foldl (processFile embed) kb files).metadata f.absPath =
        some f.mtime :=
    foldl_metaLookup_self embed files kb habs hcontent hembed hdist hal
  rw [syncDir_eq_syncOutcome embed relTo files kb hal hrel] at h1
  unfold syncOutcome at h1
  simp only [] at h1
  split at h1
  · -- something was removed: kb1 is the filtered state
    cases h1
    rename_i hgt
    apply syncDir_noop embed relTo files _ (by simp) habs hrel
    · intro f hf
      simp only []
      rw [metaLookup_filter_of_true]
      · exact hmeta f hf
      · intro v
        rw [hrel f hf]
        simpa using List.mem_map_of_mem (·.relPath) hf
    · intro d hd
      simp only [List.mem_map] at hd
      obtain ⟨p, hp, hpd⟩ := hd
      have := (List.mem_filter.mp hp).2
      subst hpd
      simpa using this
  · -- nothing removed: kb1 is the post-loop state
    cases h1
    rename_i hle
    apply syncDir_noop embed relTo files _ halm habs hrel hmeta
    intro d hd
    -- the removal count is zero, so the filter kept everything
    have h2 : (((List.foldl (processFile embed) kb files).documents.zip
        (List.foldl (processFile embed) kb files).embeddings).filter
        (fun p => decide (docIdentity p.1 ∈ files.map (·.relPath)))).length ≤
        ((List.foldl (processFile embed) kb files).documents.zip
          (List.foldl (processFile embed) kb files).embeddings).length :=
      List.length_filter_le _ _
    have h3 : (((List.foldl (processFile embed) kb files).documents.zip
        (List.foldl (processFile embed) kb files).embeddings)).length =
        (List.foldl (processFile embed) kb files).documents.length := by
      rw [List.length_zip]; omega
    have hzf : (((List.foldl (processFile embed) kb files).documents.zip
        (List.foldl (processFile embed) kb files).embeddings).filter
        (fun p => decide (docIdentity p.1 ∈ files.map (·.relPath)))) =
        ((List.foldl (processFile embed) kb files).documents.zip
          (List.foldl (processFile embed) kb files).embeddings) :=
      (List.filter_sublist _).eq_of_length (by omega)
    obtain ⟨n, hn, hdn⟩ := List.mem_iff_getElem.mp hd
    have hne : n < (List.foldl (processFile embed) kb files).embeddings.length := by
      omega
    have hnz : n < ((List.foldl (processFile embed) kb files).documents.zip
        (List.foldl (processFile embed) kb files).embeddings).length := by
      omega
    have hpair : ((List.foldl (processFile embed) kb files).documents.zip
        (List.foldl (processFile embed) kb files).embeddings)[n] =
        (d, (List.foldl (processFile embed) kb files).embeddings[n]) := by
      rw [List.getElem_zip]
      exact congrArg (·, _) hdn
    have hmem : (d, (List.foldl (processFile embed) kb files).embeddings[n]) ∈
        ((List.foldl (processFile embed) kb files).documents.zip
          (List.foldl (processFile embed) kb files).embeddings) := by
      rw [← hpair]
      exact List.getElem_mem _
    have hmem2 : (d, (List.foldl (processFile embed) kb files).embeddings[n]) ∈
        (((List.foldl (processFile embed) kb files).documents.zip
          (List.foldl (processFile embed) kb files).embeddings).filter
          (fun p => decide (docIdentity p.1 ∈ files.map (·.relPath)))) := by
      rw [hzf]
      exact hmem
    have := (List.mem_filter.mp hmem2).2
    simpa using this

/-- C2 counterexample: two concrete runs falsify "for every directory root
and every store state the second sync classifies every file unchanged".
(1) With a relative sync root, `str(path)` (`"docs/a.txt"`) differs from the
absolute metadata key, so after a completed first pass over the file loop the
change detector still classifies the file as changed (and the sync itself
aborts with `ValueError` in the removal-set comprehension).  (2) With a
failing embedding service the first run completes normally but records no
metadata, so the second pass re-classifies the file as changed and re-reads
it. -/
theorem resync_idempotent_counterexample :
    (syncDir (fun _ => some [1]) (fun _ => none)
        [FileInfo.mk "docs/a.txt" "/w/docs/a.txt" "a.txt" 10 (some "hello")]
        (KB.mk [] [] []) =
      .error (KB.mk ["文件: a.txt\n\nhello"] [[1]] [("/w/docs/a.txt", 10)]) ∧
      checkFileChanges [("/w/docs/a.txt", 10)]
        (FileInfo.mk "docs/a.txt" "/w/docs/a.txt" "a.txt" 10 (some "hello")) = true) ∧
    (syncDir (fun _ => none) (fun s => if s = "/w/a.txt" then some "a.txt" else none)
        [FileInfo.mk "/w/a.txt" "/w/a.txt" "a.txt" 10 (some "hello")]
        (KB.mk [] [] []) = .ok (KB.mk [] [] []) ∧
      checkFileChanges (KB.mk [] [] []).metadata
        (FileInfo.mk "/w/a.txt" "/w/a.txt" "a.txt" 10 (some "hello")) = true) :=
  ⟨⟨rfl, rfl⟩, ⟨rfl, rfl⟩⟩

theorem resync_idempotent_amended_witness :
    (KB.mk [] [] []).documents.length = (KB.mk [] [] []).embeddings.length ∧
    ((∀ f ∈ [FileInfo.mk "/w/a.txt" "/w/a.txt" "a.txt" 10 (some "hello")],
        checkFileChanges (KB.mk ["文件: a.txt\n\nhello"] [[1]]
          [("/w/a.txt", 10)]).metadata f = false) ∧
      syncDir (fun _ => some [1]) (fun s => if s = "/w/a.txt" then some "a.txt" else none)
        [FileInfo.mk "/w/a.txt" "/w/a.txt" "a.txt" 10 (some "hello")]
        (KB.mk ["文件: a.txt\n\nhello"] [[1]] [("/w/a.txt", 10)]) =
        .ok (KB.mk ["文件: a.txt\n\nhello"] [[1]] [("/w/a.txt", 10)])) :=
  ⟨rfl, resync_idempotent_amended (fun _ => some [1])
    (fun s => if s = "/w/a.txt" then some "a.txt" else none)
    [FileInfo.mk "/w/a.txt" "/w/a.txt" "a.txt" 10 (some "hello")]
    (KB.mk [] [] [])
    (KB.mk ["文件: a.txt\n\nhello"] [[1]] [("/w/a.txt", 10)])
    rfl (by decide) (by decide) (by decide) (by decide)
    (by intro f hf c hc; exact ⟨by simp, by simp⟩) rfl⟩

/-! ### Helper lemmas: the argsort-based top-k selection -/

theorem ascRank_total (sims : List Int) : ∀ i j, ascRank sims i j ∨ ascRank sims j i := by
  intro i j
  unfold ascRank
  omega

theorem ascRank_trans (sims : List Int) :
    ∀ i j k, ascRank sims i j → ascRank sims j k → ascRank sims i k := by
  intro i j k h1 h2
  unfold ascRank at *
  omega

theorem specRankLast_total (sims : List Int) :
    ∀ i j, specRankLast sims i j ∨ specRankLast sims j i := by
  intro i j
  unfold specRankLast
  omega

theorem specRankLast_trans (sims : List Int) :
    ∀ i j k, specRankLast sims i j → specRankLast sims j k → specRankLast sims i k := by
  intro i j k h1 h2
  unfold specRankLast at *
  omega

theorem specRankLast_antisymm (sims : List Int) :
    ∀ i j, specRankLast sims i j → specRankLast sims j i → i = j := by
  intro i j h1 h2
  unfold specRankLast at *
  omega

/-- Reversing the ascending argsort gives exactly the descending sort of the
indices with ties broken toward the larger index. -/
theorem argsortAsc_reverse (sims : List Int) :
    (argsortAsc sims).reverse =
      List.insertionSort (specRankLast sims) (List.range sims.length) := by
  haveI : IsTotal Nat (ascRank sims) := ⟨ascRank_total sims⟩
  haveI : IsTrans Nat (ascRank sims) := ⟨ascRank_trans sims⟩
  haveI : IsTotal Nat (specRankLast sims) := ⟨specRankLast_total sims⟩
  haveI : IsTrans Nat (specRankLast sims) := ⟨specRankLast_trans sims⟩
  haveI : IsAntisymm Nat (specRankLast sims) := ⟨specRankLast_antisymm sims⟩
  apply List.eq_of_perm_of_sorted (r := specRankLast sims)
  · exact ((List.reverse_perm _).trans (List.perm_insertionSort _ _)).trans
      (List.perm_insertionSort _ _).symm
  · have hs : List.Sorted (ascRank sims) (argsortAsc sims) :=
      List.sorted_insertionSort _ _
    unfold List.Sorted at hs ⊢
    rw [List.pairwise_reverse]
    refine hs.imp ?_
    intro a b h
    unfold ascRank at h
    unfold specRankLast
    omega
  · exact List.sorted_insertionSort _ _

/-- `l[-k:][::-1]` for `k ≥ 1` is the first `k` elements of the reversal. -/
theorem lastSlice_reverse (l : List Nat) (k : Nat) (hk : k ≠ 0) :
    (lastSlice k l).reverse = l.reverse.take k := by
  unfold lastSlice
  rw [if_neg hk, List.reverse_drop]
  rw [List.take_eq_take]
  rw [List.length_reverse]
  omega

/-- Mapping `getD` over the index range recovers the list. -/
theorem map_getD_range {α : Type} (d : α) (l : List α) :
    (List.range l.length).map (fun i => l.getD i d) = l := by
  induction l with
  | nil => rfl
  | cons x l ih =>
    rw [List.length_cons, List.range_succ_eq_map, List.map_cons, List.map_map]
    have hc : ((fun i => (x :: l).getD i d) ∘ Nat.succ) = fun i => l.getD i d := by
      funext i
      simp [Nat.succ_eq_add_one, List.getD_cons_succ]
    rw [List.getD_cons_zero, hc, ih]

/-- Reading the scores off the descending index sort yields the descending
sort of the score values themselves. -/
theorem map_getD_insertionSort (sims : List Int) :
    (List.insertionSort (specRankLast sims) (List.range sims.length)).map
      (fun i => sims.getD i 0) =
    List.insertionSort (fun a b : Int => a ≥ b) sims := by
  haveI : IsTotal Nat (specRankLast sims) := ⟨specRankLast_total sims⟩
  haveI : IsTrans Nat (specRankLast sims) := ⟨specRankLast_trans sims⟩
  haveI : IsTotal Int (fun a b : Int => a ≥ b) := ⟨fun a b => le_total b a⟩
  haveI : IsTrans Int (fun a b : Int => a ≥ b) := ⟨fun a b c h1 h2 => le_trans h2 h1⟩
  haveI : IsAntisymm Int (fun a b : Int => a ≥ b) := ⟨fun a b h1 h2 => le_antisymm h2 h1⟩
  apply List.eq_of_perm_of_sorted (r := fun a b : Int => a ≥ b)
  · refine ((List.Perm.map _ (List.perm_insertionSort _ _)).trans ?_).trans
      (List.perm_insertionSort _ _).symm
    rw [show (List.range sims.length) = List.range ((sims).length) from rfl,
      map_getD_range]
  · refine List.Pairwise.map _ ?_ (List.sorted_insertionSort _ _)
    intro a b h
    unfold specRankLast at h
    omega
  · exact List.sorted_insertionSort _ _

/-- `search` for `top_k ≥ 1`, after computing the similarity scores, returns
exactly the first `k` entries of the reverse-tie descending index sort, mapped
to `(content, score)` pairs. -/
theorem searchModel_eq_spec (q : List Int) (k : Nat) (docs : List String)
    (embs : List (List Int)) (hk : k ≠ 0) :
    searchModel q k docs embs =
      (specTopKLast (embs.map (dot q)) k).map
        (fun i => (docs.getD i "", (embs.map (dot q)).getD i 0)) := by
  unfold searchModel specTopKLast
  simp only []
  rw [lastSlice_reverse _ k hk, argsortAsc_reverse]

/-- `search` for `top_k = 0`: the slice `[-0:]` is the whole array, so the
result enumerates every stored index in descending score order. -/
theorem searchModel_zero_eq (q : List Int) (docs : List String)
    (embs : List (List Int)) :
    searchModel q 0 docs embs =
      (List.insertionSort (specRankLast (embs.map (dot q)))
        (List.range (embs.map (dot q)).length)).map
        (fun i => (docs.getD i "", (embs.map (dot q)).getD i 0)) := by
  unfold searchModel lastSlice
  simp only [ite_true]
  rw [argsortAsc_reverse]

/-- C3 amended: for `top_k ≥ 1` the search returns the `k` documents with the
`k` highest dot-product scores as `(content, score)` pairs ordered by
descending score — formally, the result is the first `k` entries of the index
sort by descending score with ties broken by *reverse* store order (later
index first), its score column is the first `k` entries of the descending
sort of all scores, its length is `min k n`, and an empty store yields an
empty result rather than an error. -/
theorem search_topk_amended (q : List Int) (k : Nat) (docs : List String)
    (embs : List (List Int)) (hk : 1 ≤ k) :
    searchModel q k docs embs =
      (specTopKLast (embs.map (dot q)) k).map
        (fun i => (docs.getD i "", (embs.map (dot q)).getD i 0)) ∧
    (searchModel q k docs embs).length = min k embs.length ∧
    (searchModel q k docs embs).map Prod.snd =
      (List.insertionSort (fun a b : Int => a ≥ b) (embs.map (dot q))).take k ∧
    List.Sorted (fun a b : Int => a ≥ b) ((searchModel q k docs embs).map Prod.snd) ∧
    (embs = [] → searchModel q k docs embs = []) := by
  haveI : IsTotal Int (fun a b : Int => a ≥ b) := ⟨fun a b => le_total b a⟩
  haveI : IsTrans Int (fun a b : Int => a ≥ b) := ⟨fun a b c h1 h2 => le_trans h2 h1⟩
  have hk0 : k ≠ 0 := by omega
  have h1 := searchModel_eq_spec q k docs embs hk0
  have hlen : (List.insertionSort (specRankLast (embs.map (dot q)))
      (List.range (embs.map (dot q)).length)).length = embs.length := by
    rw [(List.perm_insertionSort _ _).length_eq, List.length_range, List.length_map]
  have hsnd : (searchModel q k docs embs).map Prod.snd =
      (List.insertionSort (fun a b : Int => a ≥ b) (embs.map (dot q))).take k := by
    rw [h1, List.map_map]
    unfold specTopKLast
    rw [show (Prod.snd ∘ fun i => (docs.getD i "", (embs.map (dot q)).getD i 0)) =
        (fun i => (embs.map (dot q)).getD i 0) from rfl]
    rw [List.map_take, map_getD_insertionSort]
  refine ⟨h1, ?_, hsnd, ?_, ?_⟩
  · rw [h1, List.length_map]
    unfold specTopKLast
    rw [List.length_take, hlen]
  · rw [hsnd]
    exact List.Pairwise.sublist (List.take_sublist _ _) (List.sorted_insertionSort _ _)
  · intro h
    subst h
    unfold searchModel argsortAsc lastSlice
    simp

/-- C3 counterexample: with two stored documents of equal score and
`top_k = 1`, `search` returns the *later* document, while the claimed stable
tie-break (original store order) would return the earlier one. -/
theorem search_topk_counterexample :
    searchModel [1] 1 ["a", "b"] [[1], [1]] = [("b", 1)] ∧
    (specTopKStable ([[1], [1]].map (dot [1])) 1).map
      (fun i => (["a", "b"].getD i "", ([[1], [1]].map (dot [1])).getD i 0)) =
      [("a", 1)] ∧
    searchModel [1] 1 ["a", "b"] [[1], [1]] ≠
      (specTopKStable ([[1], [1]].map (dot [1])) 1).map
        (fun i => (["a", "b"].getD i "", ([[1], [1]].map (dot [1])).getD i 0)) := by
  refine ⟨by decide, by decide, by decide⟩

theorem search_topk_amended_witness :
    1 ≤ 1 ∧
    (searchModel [1] 1 ["a"] [[2]] =
      (specTopKLast ([[2]].map (dot [1])) 1).map
        (fun i => (["a"].getD i "", ([[2]].map (dot [1])).getD i 0)) ∧
      (searchModel [1] 1 ["a"] [[2]]).length = min 1 [[2]].length ∧
      (searchModel [1] 1 ["a"] [[2]]).map Prod.snd =
        (List.insertionSort (fun a b : Int => a ≥ b) ([[2]].map (dot [1]))).take 1 ∧
      List.Sorted (fun a b : Int => a ≥ b)
        ((searchModel [1] 1 ["a"] [[2]]).map Prod.snd) ∧
      ([[2]] = ([] : List (List Int)) → searchModel [1] 1 ["a"] [[2]] = [])) :=
  ⟨le_refl 1, search_topk_amended [1] 1 ["a"] [[2]] (le_refl 1)⟩

/-- C10: with `top_k = 0` on a nonempty store, the slice `[-0:]` selects the
entire score array, so `search` returns all `n` stored documents ordered by
descending score — not an empty result; the result is empty only when the
store is empty. -/
theorem search_topk_zero_returns_all (q : List Int) (docs : List String)
    (embs : List (List Int))
    (hal : docs.length = embs.length) (hne : embs ≠ []) :
    (searchModel q 0 docs embs).length = embs.length ∧
    ((searchModel q 0 docs embs).map Prod.fst).Perm docs ∧
    List.Sorted (fun a b : Int => a ≥ b) ((searchModel q 0 docs embs).map Prod.snd) ∧
    searchModel q 0 docs embs ≠ [] := by
  haveI : IsTotal Nat (specRankLast (embs.map (dot q))) :=
    ⟨specRankLast_total (embs.map (dot q))⟩
  haveI : IsTrans Nat (specRankLast (embs.map (dot q))) :=
    ⟨specRankLast_trans (embs.map (dot q))⟩
  have h0 := searchModel_zero_eq q docs embs
  have hlen : (List.insertionSort (specRankLast (embs.map (dot q)))
      (List.range (embs.map (dot q)).length)).length = embs.length := by
    rw [(List.perm_insertionSort _ _).length_eq, List.length_range, List.length_map]
  have hL : (searchModel q 0 docs embs).length = embs.length := by
    rw [h0, List.length_map, hlen]
  refine ⟨hL, ?_, ?_, ?_⟩
  · rw [h0, List.map_map]
    rw [show (Prod.fst ∘ fun i => (docs.getD i "", (embs.map (dot q)).getD i 0)) =
        (fun i => docs.getD i "") from rfl]
    refine (List.Perm.map _ (List.perm_insertionSort _ _)).trans ?_
    rw [List.length_map, ← hal, map_getD_range]
  · rw [h0, List.map_map]
    rw [show (Prod.snd ∘ fun i => (docs.getD i "", (embs.map (dot q)).getD i 0)) =
        (fun i => (embs.map (dot q)).getD i 0) from rfl]
    refine List.Pairwise.map _ ?_ (List.sorted_insertionSort _ _)
    intro a b h
    unfold specRankLast at h
    omega
  · intro h
    apply hne
    have := congrArg List.length h
    rw [hL] at this
    exact List.length_eq_zero.mp this

theorem search_topk_zero_returns_all_witness :
    (["a", "b"] : List String).length = ([[1], [2]] : List (List Int)).length ∧
    ((searchModel [1] 0 ["a", "b"] [[1], [2]]).length = [[1], [2]].length ∧
      ((searchModel [1] 0 ["a", "b"] [[1], [2]]).map Prod.fst).Perm ["a", "b"] ∧
      List.Sorted (fun a b : Int => a ≥ b)
        ((searchModel [1] 0 ["a", "b"] [[1], [2]]).map Prod.snd) ∧
      searchModel [1] 0 ["a", "b"] [[1], [2]] ≠ []) :=
  ⟨rfl, search_topk_zero_returns_all [1] ["a", "b"] [[1], [2]] rfl (by decide)⟩
